import Mathlib

/-!
Verification of the audio-processing core of the `meeting` repository.

The development shallowly embeds the audio utility module (base64 transport
codec, PCM quantizers, WAV container encoder, chunker), the live-session
playback scheduler, and the transcription retry dispatcher, and proves the
spec's testable properties about them.

Conventions: bytes are `Nat` values `< 256`; audio samples are rationals
(`ℚ`), standing for the JS doubles, with `ratTrunc` modelling JS `|0` /
`ToInteger` truncation toward zero.
-/

namespace Meeting

/-! ## Binary transport codec (src/unnamed/part_001, `encodeAudio` / `decodeAudio`)

`encodeAudio` builds a Latin-1 binary string from the byte array and applies
the browser builtin `btoa`; `decodeAudio` applies `atob` and reads the char
codes back.  The two builtins are standard base64 over the RFC 4648 alphabet
with `=` padding, which we model directly on byte lists. -/

/-- Base64 alphabet: maps a sextet `0..63` to its alphabet character
(`A..Z`, `a..z`, `0..9`, `+`, `/`). -/
def sextetChar (s : Nat) : Char :=
  if s < 26 then Char.ofNat (65 + s)
  else if s < 52 then Char.ofNat (97 + (s - 26))
  else if s < 62 then Char.ofNat (48 + (s - 52))
  else if s = 62 then '+'
  else '/'

/-- Inverse alphabet: maps a base64 character back to its sextet. -/
def charSextet (c : Char) : Nat :=
  let n := c.toNat
  if 65 ≤ n ∧ n ≤ 90 then n - 65
  else if 97 ≤ n ∧ n ≤ 122 then n - 97 + 26
  else if 48 ≤ n ∧ n ≤ 57 then n - 48 + 52
  else if n = 43 then 62
  else 63

/-- Model of `encodeAudio`: the byte list is encoded three bytes at a time
into four base64 characters, with `=` padding on a trailing group of one or
two bytes — the behaviour of `btoa` on the Latin-1 string built by the
source's loop. -/
def encodeAudio : List Nat → List Char
  | [] => []
  | [b0] =>
      [sextetChar (b0 / 4), sextetChar (b0 % 4 * 16), '=', '=']
  | [b0, b1] =>
      [sextetChar (b0 / 4), sextetChar (b0 % 4 * 16 + b1 / 16),
       sextetChar (b1 % 16 * 4), '=']
  | b0 :: b1 :: b2 :: rest =>
      sextetChar (b0 / 4) :: sextetChar (b0 % 4 * 16 + b1 / 16) ::
      sextetChar (b1 % 16 * 4 + b2 / 64) :: sextetChar (b2 % 64) ::
      encodeAudio rest

/-- Model of `decodeAudio`: four base64 characters at a time are turned back
into three bytes; a trailing group carrying one or two `=` padding characters
yields two or one bytes — the behaviour of `atob` followed by the source's
`charCodeAt` loop.  Inputs `atob` would reject (length not a multiple of
four, interior padding) never arise from `encodeAudio`; the model returns
the bytes of the well-formed prefix. -/
def decodeAudio : List Char → List Nat
  | c0 :: c1 :: c2 :: c3 :: rest =>
      if rest = [] ∧ c3 = '=' then
        if c2 = '=' then
          [charSextet c0 * 4 + charSextet c1 / 16]
        else
          [charSextet c0 * 4 + charSextet c1 / 16,
           charSextet c1 % 16 * 16 + charSextet c2 / 4]
      else
        (charSextet c0 * 4 + charSextet c1 / 16) ::
        (charSextet c1 % 16 * 16 + charSextet c2 / 4) ::
        (charSextet c2 % 4 * 64 + charSextet c3) ::
        decodeAudio rest
  | _ => []

/-! ## PCM quantization (src/unnamed/part_001, `audioBufferToWav` / `createPcmBlob`) -/

/-- Truncation of a rational toward zero — the JS `| 0` coercion and the
`ToInteger` step of a typed-array store (for values inside 32/16-bit
range). -/
def ratTrunc (q : ℚ) : Int := if q < 0 then -⌊-q⌋ else ⌊q⌋

/-- The clamp `Math.max(-1, Math.min(1, x))` of `audioBufferToWav`. -/
def clamp1 (s : ℚ) : ℚ := max (-1) (min 1 s)

/-- Per-sample quantizer of `audioBufferToWav`:
`sample = (0.5 + sample < 0 ? sample * 32768 : sample * 32767) | 0` applied
to the clamped sample.  JS operator precedence parses the condition as
`(0.5 + sample) < 0`. -/
def quantizeWav (s : ℚ) : Int :=
  let c := clamp1 s
  ratTrunc (if 1/2 + c < 0 then c * 32768 else c * 32767)

/-- The quantization rule as the spec's §4.3 words it: scale the clamped
sample by 32767 when it is non-negative and by 32768 when it is negative,
then truncate.  Stated for comparison with `quantizeWav`. -/
def quantizeSpecRule (s : ℚ) : Int :=
  let c := clamp1 s
  ratTrunc (if 0 ≤ c then c * 32767 else c * 32768)

/-- JS `ToInt16`, the conversion applied when storing a double into an
`Int16Array` slot: truncate toward zero, reduce modulo 2^16, interpret the
top bit as sign. -/
def toInt16 (x : ℚ) : Int :=
  let i := ratTrunc x
  let m := i % 65536
  if 32768 ≤ m then m - 65536 else m

/-- Model of `createPcmBlob`: the loop `int16[i] = data[i] * 32768` over
the frame's samples, and the packet's fixed mime type. -/
def createPcmBlob (data : List ℚ) : List Int × String :=
  (data.map fun s => toInt16 (s * 32768), "audio/pcm;rate=16000")

/-- Signed 16-bit wrap-around written as a single modulo expression:
reduce into `[-32768, 32767]`.  Spec-side reformulation used to state what
`toInt16` computes. -/
def wrap16 (t : Int) : Int := (t + 32768) % 65536 - 32768

/-! ## Inbound playback decoding (src/unnamed/part_001, `decodeAudioData`) -/

/-- Decoding of `new Int16Array(data.buffer)`: consecutive byte pairs,
low byte first, top bit as sign.  A dangling odd byte (on which the
typed-array construction would throw) yields no sample. -/
def bytesToInt16 : List Nat → List Int
  | lo :: hi :: rest =>
    (if 32768 ≤ lo + 256 * hi then (lo + 256 * hi : Int) - 65536
     else (lo + 256 * hi : Int)) :: bytesToInt16 rest
  | _ => []

/-- Model of `decodeAudioData`: channel `c` of the produced buffer holds
`dataInt16[i * numChannels + c] / 32768.0` for each frame
`i < frameCount = dataInt16.length / numChannels`. -/
def decodeAudioData (bytes : List Nat) (numChannels : Nat) : List (List ℚ) :=
  let d := bytesToInt16 bytes
  let frameCount := d.length / numChannels
  (List.range numChannels).map fun c =>
    (List.range frameCount).map fun i => ((d.getD (i * numChannels + c) 0 : Int) : ℚ) / 32768

/-! ## WAV container encoder (src/unnamed/part_001, `audioBufferToWav`) -/

/-- Little-endian byte pair written by `DataView.setUint16` (the value
reduced modulo 2^16). -/
def u16le (x : Nat) : List Nat := [x % 256, x / 256 % 256]

/-- Little-endian byte quadruple written by `DataView.setUint32`. -/
def u32le (x : Nat) : List Nat :=
  [x % 256, x / 256 % 256, x / 65536 % 256, x / 16777216 % 256]

/-- Little-endian byte pair of a signed 16-bit sample written by
`DataView.setInt16`. -/
def i16le (v : Int) : List Nat := u16le (v % 65536).toNat

/-- Interleaved PCM payload of `audioBufferToWav`: the
`while (pos < buffer.length)` loop writes, for each frame position, each
channel's quantized sample. -/
def wavData (channels : List (List ℚ)) (len : Nat) : List Nat :=
  (List.range len).flatMap fun pos =>
    channels.flatMap fun ch => i16le (quantizeWav (ch.getD pos 0))

/-- Model of `audioBufferToWav` for a buffer of `numOfChan` channels with
`len` frames at `sampleRate`: the 44-byte RIFF/WAVE header followed by the
interleaved data.  The `setUint32`/`setUint16` little-endian writes at
increasing offsets become list concatenation; the data-chunk length field
`length - pos - 4` is written with `pos = 40`. -/
def audioBufferToWav (numOfChan sampleRate len : Nat) (channels : List (List ℚ)) : List Nat :=
  let length := len * numOfChan * 2 + 44
  u32le 0x46464952 ++ u32le (length - 8) ++ u32le 0x45564157 ++
  u32le 0x20746d66 ++ u32le 16 ++ u16le 1 ++ u16le numOfChan ++
  u32le sampleRate ++ u32le (sampleRate * 2 * numOfChan) ++
  u16le (numOfChan * 2) ++ u16le 16 ++
  u32le 0x61746164 ++ u32le (length - 40 - 4) ++
  wavData channels len

/-! ## Chunker (src/unnamed/part_001, `splitAudio`) -/

/-- Chunking loop of `splitAudio`: `while (startSample < pcmData.length)`
slice `min(startSample + samplesPerChunk, pcmData.length)` and advance.
Sliced off the front, that is `take`/`drop`.  The source only runs it with
`samplesPerChunk = 300 * 16000`; on a zero chunk size (where the source
loop would not terminate) the model returns `[]`. -/
def chunkLoop (spc : Nat) : List α → List (List α)
  | [] => []
  | x :: xs =>
    if _h : spc = 0 then []
    else ((x :: xs).take spc) :: chunkLoop spc ((x :: xs).drop spc)
termination_by l => l.length
decreasing_by simp [List.length_drop]; omega

/-- Model of `splitAudio` on the resampled 16 kHz mono sample list: a
buffer no longer than the chunk bound is returned as the single compressed
chunk (`audioBuffer.duration <= CHUNK_DURATION_SEC` branch); otherwise the
chunk loop cuts it.  The duration test `length / rate ≤ maxDur` is
`length ≤ maxDur * rate`.  The source fixes `maxDur = 300` and
`rate = 16000`; they are parameters here. -/
def splitAudio (maxDur rate : Nat) (data : List α) : List (List α) :=
  if data.length ≤ maxDur * rate then [data]
  else chunkLoop (maxDur * rate) data

/-! ## Playback scheduler (src/components/LiveSession.tsx, `handleServerMessage`) -/

/-- Scheduler state of `LiveSession`: the `nextStartTimeRef` cursor and the
set of scheduled `AudioBufferSourceNode`s (`sourcesRef`), identified here by
numeric ids. -/
structure SchedState where
  nextStartTime : ℚ
  sources : List Nat
deriving DecidableEq

/-- Audio branch of `handleServerMessage`: bump the cursor up to `now`
(`if (nextStartTimeRef.current < currentTime) ...`), start the new source at
the cursor, register it, advance the cursor by the buffer's duration.
Returns the new state and the time passed to `source.start`. -/
def receiveItem (s : SchedState) (now dur : ℚ) (id : Nat) : SchedState × ℚ :=
  let nst := if s.nextStartTime < now then now else s.nextStartTime
  ({ nextStartTime := nst + dur, sources := id :: s.sources }, nst)

/-- Interruption branch of `handleServerMessage`: stop every scheduled
source, clear the set, reset the cursor to 0.  Returns the new state and
the list of sources that were stopped. -/
def interruptSched (s : SchedState) : SchedState × List Nat :=
  ({ nextStartTime := 0, sources := [] }, s.sources)

/-- Start times assigned to a sequence of arrivals `(now, duration)`
processed in order by the audio branch. -/
def runArrivals (s : SchedState) : List (ℚ × ℚ) → List ℚ
  | [] => []
  | (now, dur) :: rest =>
    let r := receiveItem s now dur 0
    r.2 :: runArrivals r.1 rest

/-! ## Retry dispatcher (src/components/AudioTranscriber.tsx) -/

/-- Outcome of one remote transcription call: a text result, a transient
failure (message containing `503`, `overloaded`, `UNAVAILABLE` or `429`),
or any other failure. -/
inductive CallResult where
  | success (text : String)
  | transient
  | fatal
deriving DecidableEq

/-- Retry loop of `transcribeSingleFile` from a given `attempt` counter,
where `calls n` is the outcome of the remote call made while
`attempt = n`; `maxRetries = 3` and `base = RETRY_DELAY_MS` in the source.
Returns the number of calls made, the waits slept between them
(`RETRY_DELAY_MS * attempt` after the increment), and either the returned
text or the propagated error. -/
def retryLoop (maxRetries base : Nat) (calls : Nat → CallResult) (attempt : Nat) :
    Nat × List Nat × Except Unit String :=
  if attempt < maxRetries then
    match calls attempt with
    | .success t => (1, [], .ok t)
    | .transient =>
      if attempt < maxRetries - 1 then
        let r := retryLoop maxRetries base calls (attempt + 1)
        (r.1 + 1, base * (attempt + 1) :: r.2.1, r.2.2)
      else (1, [], .error ())
    | .fatal => (1, [], .error ())
  else (0, [], .ok "")
termination_by maxRetries - attempt

/-- `transcribeSingleFile`: the retry loop entered with `attempt = 0`. -/
def transcribeSingleFile (base : Nat) (calls : Nat → CallResult) :
    Nat × List Nat × Except Unit String :=
  retryLoop 3 base calls 0

/-- Sequential chunk loop of `handleTranscriptionFlow`: transcribe each
part in order, accumulating per-part texts; a thrown error aborts the loop
while the transcript accumulated so far is kept (the catch block only
appends an error note to it).  Returns the retained texts and whether the
sequence aborted. -/
def dispatchChunks (base : Nat) : List (Nat → CallResult) → List String × Bool
  | [] => ([], false)
  | c :: rest =>
    match (transcribeSingleFile base c).2.2 with
    | .ok t =>
      let r := dispatchChunks base rest
      (t :: r.1, r.2)
    | .error _ => ([], true)

/-! ## Theorems -/

theorem charSextet_sextetChar (s : Nat) (hs : s < 64) :
    charSextet (sextetChar s) = s := by
  have h : ∀ t : Fin 64, charSextet (sextetChar t.val) = t.val := by decide
  exact h ⟨s, hs⟩

theorem sextetChar_ne_pad (s : Nat) (hs : s < 64) : sextetChar s ≠ '=' := by
  have h : ∀ t : Fin 64, sextetChar t.val ≠ '=' := by decide
  exact h ⟨s, hs⟩

/-- C3: for every byte sequence `b` (each entry `< 256`, as delivered by a
`Uint8Array`), decoding the encoding gives back `b` exactly — the transport
codec is lossless, covering the empty sequence and every byte value. -/
theorem decodeAudio_encodeAudio (b : List Nat) (hb : ∀ x ∈ b, x < 256) :
    decodeAudio (encodeAudio b) = b := by
  induction b using encodeAudio.induct with
  | case1 => rfl
  | case2 b0 =>
    have h0 : b0 < 256 := hb b0 (by simp)
    simp only [encodeAudio, decodeAudio, if_true]
    rw [charSextet_sextetChar _ (by omega), charSextet_sextetChar _ (by omega)]
    rw [if_pos (And.intro trivial trivial)]
    simp only [List.cons.injEq, and_true]
    omega
  | case3 b0 b1 =>
    have h0 : b0 < 256 := hb b0 (by simp)
    have h1 : b1 < 256 := hb b1 (by simp)
    simp only [encodeAudio, decodeAudio, if_true]
    rw [if_neg (sextetChar_ne_pad _ (by omega))]
    rw [charSextet_sextetChar _ (by omega), charSextet_sextetChar _ (by omega),
        charSextet_sextetChar _ (by omega)]
    rw [if_pos (And.intro trivial trivial)]
    simp only [List.cons.injEq, and_true]
    omega
  | case4 b0 b1 b2 rest ih =>
    have h0 : b0 < 256 := hb b0 (by simp)
    have h1 : b1 < 256 := hb b1 (by simp)
    have h2 : b2 < 256 := hb b2 (by simp)
    have hrest : ∀ x ∈ rest, x < 256 := fun x hx => hb x (by simp [hx])
    simp only [encodeAudio, decodeAudio]
    rw [if_neg]
    · rw [charSextet_sextetChar _ (by omega), charSextet_sextetChar _ (by omega),
          charSextet_sextetChar _ (by omega), charSextet_sextetChar _ (by omega)]
      rw [ih hrest]
      simp only [List.cons.injEq, and_true]
      refine ⟨by omega, by omega, by omega⟩
    · rintro ⟨hnil, hpad⟩
      exact sextetChar_ne_pad _ (by omega) hpad

set_option maxRecDepth 4000 in
/-- Witness for C3 at the concrete sequence `0, 1, ..., 255` containing every
byte value. -/
theorem decodeAudio_encodeAudio_witness :
    (∀ x ∈ List.range 256, x < 256) ∧
      decodeAudio (encodeAudio (List.range 256)) = List.range 256 :=
  ⟨by decide, decodeAudio_encodeAudio (List.range 256) (by decide)⟩

theorem clamp1_mem (s : ℚ) : -1 ≤ clamp1 s ∧ clamp1 s ≤ 1 := by
  unfold clamp1
  exact ⟨le_max_left _ _, max_le (by norm_num) (min_le_left _ _)⟩

theorem ratTrunc_le (q : ℚ) (hi : Int) (hq : q ≤ hi) (h0 : 0 ≤ hi) :
    ratTrunc q ≤ hi := by
  unfold ratTrunc
  split
  · rename_i hneg
    have hfl : (0 : Int) ≤ ⌊-q⌋ := Int.floor_nonneg.mpr (by linarith)
    omega
  · rename_i hpos
    have : (⌊q⌋ : ℚ) ≤ (hi : ℚ) := le_trans (Int.floor_le q) hq
    exact_mod_cast this

theorem le_ratTrunc (q : ℚ) (lo : Int) (hq : (lo : ℚ) ≤ q) (h0 : lo ≤ 0) :
    lo ≤ ratTrunc q := by
  unfold ratTrunc
  split
  · rename_i hneg
    have h1 : (⌊-q⌋ : ℚ) ≤ -q := Int.floor_le _
    have h2 : (-q : ℚ) ≤ (-lo : Int) := by push_cast; linarith
    have : ⌊-q⌋ ≤ -lo := by exact_mod_cast le_trans h1 h2
    omega
  · rename_i hpos
    have hfl : (0 : Int) ≤ ⌊q⌋ := Int.floor_nonneg.mpr (by linarith)
    omega

/-- C1 counterexample: on the sample value -1/4 the WAV quantizer returns
-8191 (it scales by 32767), while the claimed rule — scale every negative
clamped sample by 32768 — gives -8192.  The code's ternary condition
`0.5 + sample < 0` tests `sample < -0.5`, not `sample < 0`. -/
theorem quantizeWav_ne_specRule :
    quantizeWav (-1/4) = -8191 ∧ quantizeSpecRule (-1/4) = -8192 ∧
      quantizeWav (-1/4) ≠ quantizeSpecRule (-1/4) := by
  refine ⟨?_, ?_, ?_⟩ <;>
    norm_num [quantizeWav, quantizeSpecRule, clamp1, ratTrunc]

/-- C1 (amended): every sample is clamped to [-1,1], scaled by 32768 when
the clamped value is below -1/2 and by 32767 otherwise, then truncated
toward zero; the result always fits a signed 16-bit integer. -/
theorem quantizeWav_amended (s : ℚ) :
    quantizeWav s
        = ratTrunc (if clamp1 s < -(1/2) then clamp1 s * 32768
                    else clamp1 s * 32767) ∧
      -32768 ≤ quantizeWav s ∧ quantizeWav s ≤ 32767 := by
  obtain ⟨hc1, hc2⟩ := clamp1_mem s
  have hiff : (1/2 + clamp1 s < 0) ↔ (clamp1 s < -(1/2)) := by
    constructor <;> intro h <;> linarith
  refine ⟨by rw [quantizeWav, if_congr hiff rfl rfl], ?_, ?_⟩
  · unfold quantizeWav
    dsimp only
    split
    · rename_i h
      exact le_ratTrunc _ _ (by push_cast; linarith) (by norm_num)
    · rename_i h
      exact le_ratTrunc _ _ (by push_cast; linarith) (by norm_num)
  · unfold quantizeWav
    dsimp only
    split
    · rename_i h
      exact ratTrunc_le _ _ (by push_cast; linarith) (by norm_num)
    · rename_i h
      exact ratTrunc_le _ _ (by push_cast; linarith) (by norm_num)

theorem toInt16_eq_wrap16 (x : ℚ) : toInt16 x = wrap16 (ratTrunc x) := by
  unfold toInt16 wrap16
  dsimp only
  omega

theorem toInt16_bounds (x : ℚ) : -32768 ≤ toInt16 x ∧ toInt16 x < 32768 := by
  unfold toInt16
  dsimp only
  omega

/-- C2 counterexample: on a frame holding the single sample 1.0 the capture
encoder stores -32768 (wrap-around of 32768), while the WAV rule the claim
references — clamp, then scale a non-negative value by 32767 — gives 32767. -/
theorem createPcmBlob_ne_wavRule :
    (createPcmBlob [(1 : ℚ)]).1 = [-32768] ∧ quantizeSpecRule 1 = 32767 ∧
      (createPcmBlob [(1 : ℚ)]).1 ≠ [quantizeSpecRule 1] := by
  refine ⟨?_, ?_, ?_⟩ <;>
    norm_num [createPcmBlob, toInt16, quantizeSpecRule, clamp1, ratTrunc]

/-- C2 (amended): for every captured frame, the capture encoder quantizes
each sample by truncating `s * 32768` and wrapping it modulo 2^16 into a
signed 16-bit value (no clamping — not the WAV encoder's rule), and wraps
the result in a packet with mime type `audio/pcm;rate=16000`. -/
theorem createPcmBlob_amended (data : List ℚ) :
    (createPcmBlob data).2 = "audio/pcm;rate=16000" ∧
      (createPcmBlob data).1 = data.map fun s => wrap16 (ratTrunc (s * 32768)) := by
  refine ⟨rfl, ?_⟩
  unfold createPcmBlob
  simp only [toInt16_eq_wrap16]

/-- C9: `createPcmBlob` stores, for each sample `s`, the truncation of
`s * 32768` reduced modulo 2^16 into a signed 16-bit value, with no
clamping: the sample 1.0 wraps to -32768, out-of-range samples wrap rather
than saturate (3/2 to -16384, -2 to 0), and every stored value lies in
[-32768, 32768). -/
theorem createPcmBlob_wraps (data : List ℚ) :
    (createPcmBlob data).1 = (data.map fun s => wrap16 (ratTrunc (s * 32768))) ∧
      (createPcmBlob [(1 : ℚ)]).1 = [-32768] ∧
      (createPcmBlob [(3/2 : ℚ)]).1 = [-16384] ∧
      (createPcmBlob [(-2 : ℚ)]).1 = [0] ∧
      ∀ v ∈ (createPcmBlob data).1, -32768 ≤ v ∧ v < 32768 := by
  refine ⟨?_, ?_, ?_, ?_, ?_⟩
  · unfold createPcmBlob
    simp only [toInt16_eq_wrap16]
  · norm_num [createPcmBlob, toInt16, ratTrunc]
  · norm_num [createPcmBlob, toInt16, ratTrunc]
  · norm_num [createPcmBlob, toInt16, ratTrunc]
  · intro v hv
    simp only [createPcmBlob, List.mem_map] at hv
    obtain ⟨s, _, rfl⟩ := hv
    exact toInt16_bounds _

theorem bytesToInt16_bounds (bytes : List Nat) (hb : ∀ x ∈ bytes, x < 256) :
    ∀ v ∈ bytesToInt16 bytes, -32768 ≤ v ∧ v < 32768 := by
  induction bytes using bytesToInt16.induct with
  | case1 lo hi rest ih =>
    intro v hv
    have hlo : lo < 256 := hb lo (by simp)
    have hhi : hi < 256 := hb hi (by simp)
    rcases List.mem_cons.mp hv with rfl | hv2
    · split <;> omega
    · exact ih (fun x hx => hb x (by simp [hx])) v hv2
  | case2 b h => intro v hv; simp [bytesToInt16] at hv

/-- C10: the inbound decoder maps the stored signed 16-bit sample at
interleaved index `i * numChannels + c` to the rational `v / 32768` in
channel `c`, frame `i`, and every decoded sample lies in `[-1, 1)`. -/
theorem decodeAudioData_spec (bytes : List Nat) (numChannels : Nat)
    (hb : ∀ x ∈ bytes, x < 256) :
    (∀ ch ∈ decodeAudioData bytes numChannels, ∀ q ∈ ch, -1 ≤ q ∧ q < 1) ∧
      (∀ c i, c < numChannels →
        i < (bytesToInt16 bytes).length / numChannels →
        ((decodeAudioData bytes numChannels).getD c []).getD i 0
          = ((bytesToInt16 bytes).getD (i * numChannels + c) 0 : ℚ) / 32768) := by
  have hval : ∀ idx, -32768 ≤ (bytesToInt16 bytes).getD idx 0 ∧
      (bytesToInt16 bytes).getD idx 0 < 32768 := by
    intro idx
    by_cases h : idx < (bytesToInt16 bytes).length
    · rw [List.getD_eq_getElem _ _ h]
      exact bytesToInt16_bounds bytes hb _ (List.getElem_mem h)
    · rw [List.getD_eq_default _ _ (by omega)]
      norm_num
  constructor
  · intro ch hch q hq
    simp only [decodeAudioData, List.mem_map, List.mem_range] at hch
    obtain ⟨c, hc, rfl⟩ := hch
    simp only [List.mem_map, List.mem_range] at hq
    obtain ⟨i, hi, rfl⟩ := hq
    obtain ⟨h1, h2⟩ := hval (i * numChannels + c)
    have h1q : ((-32768 : Int) : ℚ) ≤ ((bytesToInt16 bytes).getD (i * numChannels + c) 0 : ℚ) :=
      Int.cast_le.mpr h1
    have h2q : ((bytesToInt16 bytes).getD (i * numChannels + c) 0 : ℚ) < ((32768 : Int) : ℚ) :=
      Int.cast_lt.mpr h2
    push_cast at h1q h2q
    constructor
    · rw [le_div_iff₀ (by norm_num : (0:ℚ) < 32768)]
      linarith
    · rw [div_lt_one (by norm_num : (0:ℚ) < 32768)]
      linarith
  · intro c i hc hi
    have houter : (decodeAudioData bytes numChannels).getD c []
        = (List.range ((bytesToInt16 bytes).length / numChannels)).map
            (fun i => ((bytesToInt16 bytes).getD (i * numChannels + c) 0 : ℚ) / 32768) := by
      simp only [decodeAudioData]
      rw [List.getD_eq_getElem _ _ (by simpa using hc)]
      simp
    rw [houter, List.getD_eq_getElem _ _ (by simpa using hi)]
    simp

/-- Witness for C10 on the two-byte input `[0, 128]` (the sample -32768)
decoded as one mono frame. -/
theorem decodeAudioData_spec_witness :
    (∀ x ∈ [0, 128], x < 256) ∧
      ((∀ ch ∈ decodeAudioData [0, 128] 1, ∀ q ∈ ch, -1 ≤ q ∧ q < 1) ∧
        (∀ c i, c < 1 → i < (bytesToInt16 [0, 128]).length / 1 →
          ((decodeAudioData [0, 128] 1).getD c []).getD i 0
            = ((bytesToInt16 [0, 128]).getD (i * 1 + c) 0 : ℚ) / 32768)) :=
  ⟨by decide, decodeAudioData_spec [0, 128] 1 (by decide)⟩

theorem wavData_mono_length (chan : List ℚ) (len : Nat) :
    (wavData [chan] len).length = 2 * len := by
  unfold wavData
  rw [List.length_flatMap]
  simp only [Function.comp_def]
  have h : (fun pos : Nat =>
      (([chan].flatMap fun ch => i16le (quantizeWav (ch.getD pos 0))).length))
      = fun _ => 2 := by
    funext pos
    simp [i16le, u16le]
  rw [h, List.map_const', List.sum_replicate, List.length_range, smul_eq_mul]
  ring

/-- C5: for a mono buffer of `len` samples the WAV encoder emits
`44 + 2 * len` bytes whose 44-byte header holds, little-endian and in
order: "RIFF", fileLength-8, "WAVE", "fmt ", 16, format 1, channel count 1,
the sample rate, byteRate = sampleRate * channels * 2, blockAlign =
channels * 2, bitsPerSample 16, "data", and dataLength = 2 * len * channels. -/
theorem audioBufferToWav_header (sampleRate len : Nat) (chan : List ℚ) :
    (audioBufferToWav 1 sampleRate len [chan]).length = 44 + 2 * len ∧
    (audioBufferToWav 1 sampleRate len [chan]).take 4 = [0x52, 0x49, 0x46, 0x46] ∧
    ((audioBufferToWav 1 sampleRate len [chan]).drop 4).take 4 = u32le (44 + 2 * len - 8) ∧
    ((audioBufferToWav 1 sampleRate len [chan]).drop 8).take 4 = [0x57, 0x41, 0x56, 0x45] ∧
    ((audioBufferToWav 1 sampleRate len [chan]).drop 12).take 4 = [0x66, 0x6d, 0x74, 0x20] ∧
    ((audioBufferToWav 1 sampleRate len [chan]).drop 16).take 4 = u32le 16 ∧
    ((audioBufferToWav 1 sampleRate len [chan]).drop 20).take 2 = u16le 1 ∧
    ((audioBufferToWav 1 sampleRate len [chan]).drop 22).take 2 = u16le 1 ∧
    ((audioBufferToWav 1 sampleRate len [chan]).drop 24).take 4 = u32le sampleRate ∧
    ((audioBufferToWav 1 sampleRate len [chan]).drop 28).take 4 = u32le (sampleRate * 1 * 2) ∧
    ((audioBufferToWav 1 sampleRate len [chan]).drop 32).take 2 = u16le (1 * 2) ∧
    ((audioBufferToWav 1 sampleRate len [chan]).drop 34).take 2 = u16le 16 ∧
    ((audioBufferToWav 1 sampleRate len [chan]).drop 36).take 4 = [0x64, 0x61, 0x74, 0x61] ∧
    ((audioBufferToWav 1 sampleRate len [chan]).drop 40).take 4 = u32le (2 * len * 1) := by
  have hlen : (wavData [chan] len).length = 2 * len := wavData_mono_length chan len
  have he1 : len * 1 * 2 + 44 - 8 = 44 + 2 * len - 8 := by omega
  have he2 : len * 1 * 2 + 44 - 40 - 4 = 2 * len * 1 := by omega
  have he3 : sampleRate * 2 * 1 = sampleRate * 1 * 2 := by ring
  refine ⟨?_, ?_, ?_, ?_, ?_, ?_, ?_, ?_, ?_, ?_, ?_, ?_, ?_, ?_⟩ <;>
    simp [audioBufferToWav, u32le, u16le, hlen, he1, he2, he3] <;> omega

theorem chunkLoop_ne_nil (spc : Nat) (hspc : 0 < spc) (l : List α) (hl : l ≠ []) :
    chunkLoop spc l ≠ [] := by
  cases l with
  | nil => exact absurd rfl hl
  | cons x xs =>
    rw [chunkLoop]
    rw [dif_neg (by omega)]
    simp

theorem chunkLoop_join (spc : Nat) (hspc : 0 < spc) (l : List α) :
    (chunkLoop spc l).flatten = l := by
  induction l using chunkLoop.induct spc with
  | case1 => simp [chunkLoop]
  | case2 x xs h => exact absurd h (by omega)
  | case3 x xs h ih =>
    rw [chunkLoop, dif_neg h]
    simp [ih, List.take_append_drop]

theorem chunkLoop_length_le (spc : Nat) (hspc : 0 < spc) (l : List α) :
    ∀ c ∈ chunkLoop spc l, c.length ≤ spc := by
  induction l using chunkLoop.induct spc with
  | case1 => simp [chunkLoop]
  | case2 x xs h => exact absurd h (by omega)
  | case3 x xs h ih =>
    rw [chunkLoop, dif_neg h]
    intro c hc
    rcases List.mem_cons.mp hc with rfl | hc2
    · simp [List.length_take]
    · exact ih c hc2

theorem chunkLoop_dropLast_length (spc : Nat) (hspc : 0 < spc) (l : List α) :
    ∀ c ∈ (chunkLoop spc l).dropLast, c.length = spc := by
  induction l using chunkLoop.induct spc with
  | case1 => simp [chunkLoop]
  | case2 x xs h => exact absurd h (by omega)
  | case3 x xs h ih =>
    rw [chunkLoop, dif_neg h]
    by_cases hrest : (x :: xs).drop spc = []
    · rw [hrest]
      simp [chunkLoop]
    · have hne : chunkLoop spc ((x :: xs).drop spc) ≠ [] :=
        chunkLoop_ne_nil spc hspc _ hrest
      rw [List.dropLast_cons_of_ne_nil hne]
      intro c hc
      rcases List.mem_cons.mp hc with rfl | hc2
      · have hlen : spc < (x :: xs).length := by
          by_contra hcon
          exact hrest (List.drop_eq_nil_of_le (by omega))
        simp only [List.length_take, List.length_cons] at hlen ⊢
        omega
      · exact ih c hc2

/-- C4: for every buffer and positive chunk bound, concatenating the
chunks in order reproduces the buffer exactly; every chunk but the last
has exactly `maxDur * rate` samples and every chunk has at most that
many; a buffer whose duration is within the bound yields exactly one
chunk. -/
theorem splitAudio_spec (maxDur rate : Nat) (hmd : 0 < maxDur) (hr : 0 < rate)
    (data : List α) :
    (splitAudio maxDur rate data).flatten = data ∧
      (∀ c ∈ (splitAudio maxDur rate data).dropLast, c.length = maxDur * rate) ∧
      (∀ c ∈ splitAudio maxDur rate data, c.length ≤ maxDur * rate) ∧
      (data.length ≤ maxDur * rate → splitAudio maxDur rate data = [data]) := by
  have hspc : 0 < maxDur * rate := Nat.mul_pos hmd hr
  unfold splitAudio
  by_cases h : data.length ≤ maxDur * rate
  · rw [if_pos h]
    refine ⟨by simp, by simp, ?_, fun _ => rfl⟩
    intro c hc
    rcases List.mem_singleton.mp hc with rfl
    exact h
  · rw [if_neg h]
    refine ⟨chunkLoop_join _ hspc data, chunkLoop_dropLast_length _ hspc data,
      chunkLoop_length_le _ hspc data, fun hcon => absurd hcon h⟩

/-- Witness for C4: an eight-sample buffer with a six-sample chunk bound
splits into chunks of six and two samples. -/
theorem splitAudio_spec_witness :
    (0 < 2 ∧ 0 < 3) ∧
      ((splitAudio 2 3 [0, 1, 2, 3, 4, 5, 6, 7]).flatten = [0, 1, 2, 3, 4, 5, 6, 7] ∧
        (∀ c ∈ (splitAudio 2 3 [0, 1, 2, 3, 4, 5, 6, 7]).dropLast, c.length = 2 * 3) ∧
        (∀ c ∈ splitAudio 2 3 [0, 1, 2, 3, 4, 5, 6, 7], c.length ≤ 2 * 3) ∧
        (([0, 1, 2, 3, 4, 5, 6, 7] : List Nat).length ≤ 2 * 3 →
          splitAudio 2 3 [0, 1, 2, 3, 4, 5, 6, 7] = [[0, 1, 2, 3, 4, 5, 6, 7]])) :=
  ⟨⟨by decide, by decide⟩, splitAudio_spec 2 3 (by decide) (by decide) _⟩

theorem receiveItem_start (s : SchedState) (now dur : ℚ) (id : Nat) :
    (receiveItem s now dur id).2 = max s.nextStartTime now ∧
      (receiveItem s now dur id).1.nextStartTime = max s.nextStartTime now + dur ∧
      (receiveItem s now dur id).1.sources = id :: s.sources := by
  unfold receiveItem
  dsimp only
  rcases lt_or_le s.nextStartTime now with h | h
  · rw [if_pos h, max_eq_right (le_of_lt h)]
    exact ⟨rfl, rfl, rfl⟩
  · rw [if_neg (not_lt.mpr h), max_eq_left h]
    exact ⟨rfl, rfl, rfl⟩

theorem length_runArrivals (s : SchedState) (evs : List (ℚ × ℚ)) :
    (runArrivals s evs).length = evs.length := by
  induction evs generalizing s with
  | nil => rfl
  | cons e rest ih =>
    obtain ⟨now, dur⟩ := e
    simp [runArrivals, ih]

theorem head_runArrivals_ge (s : SchedState) (evs : List (ℚ × ℚ)) (h : evs ≠ []) :
    s.nextStartTime ≤ (runArrivals s evs).getD 0 0 := by
  cases evs with
  | nil => exact absurd rfl h
  | cons e rest =>
    obtain ⟨now, dur⟩ := e
    simp only [runArrivals, List.getD_cons_zero]
    rw [(receiveItem_start s now dur 0).1]
    exact le_max_left _ _

theorem runArrivals_chain (s : SchedState) (evs : List (ℚ × ℚ)) :
    ∀ i : Nat, i + 1 < (runArrivals s evs).length →
      (runArrivals s evs).getD i 0 + (evs.getD i (0, 0)).2
        ≤ (runArrivals s evs).getD (i + 1) 0 := by
  induction evs generalizing s with
  | nil => intro i hi; simp [runArrivals] at hi
  | cons e rest ih =>
    obtain ⟨now, dur⟩ := e
    intro i hi
    rw [length_runArrivals] at hi
    cases i with
    | zero =>
      have hrest : rest ≠ [] := by
        intro hcon
        rw [hcon] at hi
        simp at hi
      simp only [runArrivals, List.getD_cons_zero, List.getD_cons_succ]
      have h1 := head_runArrivals_ge (receiveItem s now dur 0).1 rest hrest
      have h2 := (receiveItem_start s now dur 0).2.1
      rw [h2] at h1
      rw [(receiveItem_start s now dur 0).1]
      exact h1
    | succ j =>
      simp only [runArrivals, List.getD_cons_succ]
      apply ih
      rw [length_runArrivals]
      simpa using hi

/-- C6: for arrivals processed in order with no interruption, the assigned
start times satisfy start(i+1) ≥ start(i) + d(i), the first start is at or
after the clock time at its arrival, each start time equals
max(nextStartTime, now), and the cursor is then advanced by the item's
duration. -/
theorem scheduler_ordering (s : SchedState) (evs : List (ℚ × ℚ)) :
    (∀ i : Nat, i + 1 < (runArrivals s evs).length →
        (runArrivals s evs).getD i 0 + (evs.getD i (0, 0)).2
          ≤ (runArrivals s evs).getD (i + 1) 0) ∧
      (evs ≠ [] → (evs.getD 0 (0, 0)).1 ≤ (runArrivals s evs).getD 0 0) ∧
      (∀ t now dur id, (receiveItem t now dur id).2 = max t.nextStartTime now ∧
          (receiveItem t now dur id).1.nextStartTime
            = max t.nextStartTime now + dur) := by
  refine ⟨runArrivals_chain s evs, ?_,
    fun t now dur id =>
      ⟨(receiveItem_start t now dur id).1, (receiveItem_start t now dur id).2.1⟩⟩
  intro h
  cases evs with
  | nil => exact absurd rfl h
  | cons e rest =>
    obtain ⟨now, dur⟩ := e
    simp only [runArrivals, List.getD_cons_zero]
    rw [(receiveItem_start s now dur 0).1]
    exact le_max_right _ _

/-- Witness for C6 on two arrivals: clock 1 with duration 2, then clock 0
with duration 1. -/
theorem scheduler_ordering_witness :
    ((runArrivals ⟨0, []⟩ [((1 : ℚ), (2 : ℚ)), ((0 : ℚ), (1 : ℚ))]).getD 0 0
        + (([((1 : ℚ), (2 : ℚ)), ((0 : ℚ), (1 : ℚ))]).getD 0 (0, 0)).2
        ≤ (runArrivals ⟨0, []⟩ [((1 : ℚ), (2 : ℚ)), ((0 : ℚ), (1 : ℚ))]).getD 1 0) ∧
      (([((1 : ℚ), (2 : ℚ)), ((0 : ℚ), (1 : ℚ))]).getD 0 (0, 0)).1
        ≤ (runArrivals ⟨0, []⟩ [((1 : ℚ), (2 : ℚ)), ((0 : ℚ), (1 : ℚ))]).getD 0 0 :=
  ⟨(scheduler_ordering ⟨0, []⟩ _).1 0 (by decide),
   (scheduler_ordering ⟨0, []⟩ _).2.1 (by decide)⟩

/-- C7: after an interruption, whatever the prior state, exactly the
scheduled items are stopped, the active set is empty, a second interruption
changes nothing, and the next arrival starts at the current clock time
rather than the pre-interruption cursor. -/
theorem interruptSched_spec (s : SchedState) (now dur : ℚ) (id : Nat) (hn : 0 ≤ now) :
    (interruptSched s).1.sources = [] ∧
      (interruptSched s).2 = s.sources ∧
      (interruptSched (interruptSched s).1).1 = (interruptSched s).1 ∧
      (receiveItem (interruptSched s).1 now dur id).2 = now := by
  refine ⟨rfl, rfl, rfl, ?_⟩
  rw [(receiveItem_start _ now dur id).1]
  show max (0 : ℚ) now = now
  exact max_eq_right hn

/-- Witness for C7 on a state with cursor 5 and two scheduled items. -/
theorem interruptSched_spec_witness :
    (interruptSched ⟨5, [3, 4]⟩).1.sources = [] ∧
      (interruptSched ⟨5, [3, 4]⟩).2 = [3, 4] ∧
      (interruptSched (interruptSched ⟨5, [3, 4]⟩).1).1 = (interruptSched ⟨5, [3, 4]⟩).1 ∧
      (receiveItem (interruptSched ⟨5, [3, 4]⟩).1 0 7 1).2 = 0 :=
  interruptSched_spec ⟨5, [3, 4]⟩ 0 7 1 (le_refl 0)

/-- C8: a chunk whose call fails transiently twice then succeeds makes
exactly 3 attempts with waits base then 2*base; a chunk whose first call
fails non-transiently makes exactly 1 attempt; such a failure aborts the
remaining chunk sequence while the results of already-transcribed chunks
are retained and returned. -/
theorem retry_dispatch_spec (base : Nat) :
    (∀ (calls : Nat → CallResult) (t : String),
        calls 0 = .transient → calls 1 = .transient → calls 2 = .success t →
        transcribeSingleFile base calls = (3, [base, 2 * base], .ok t)) ∧
      (∀ calls : Nat → CallResult, calls 0 = .fatal →
        transcribeSingleFile base calls = (1, [], .error ())) ∧
      (∀ (pre rest : List (Nat → CallResult)) (c : Nat → CallResult),
        (dispatchChunks base pre).2 = false → c 0 = .fatal →
        dispatchChunks base (pre ++ c :: rest)
          = ((dispatchChunks base pre).1, true)) := by
  have hfatal : ∀ calls : Nat → CallResult, calls 0 = .fatal →
      transcribeSingleFile base calls = (1, [], .error ()) := by
    intro calls h0
    unfold transcribeSingleFile
    rw [retryLoop]
    simp [h0]
  refine ⟨?_, hfatal, ?_⟩
  · intro calls t h0 h1 h2
    unfold transcribeSingleFile
    rw [retryLoop]
    simp only [h0, show (0 : Nat) < 3 by omega, if_true, show (0 : Nat) < 3 - 1 by omega]
    rw [retryLoop]
    simp only [h1, show (1 : Nat) < 3 by omega, if_true, show (1 : Nat) < 3 - 1 by omega]
    rw [retryLoop]
    simp only [h2, show (2 : Nat) < 3 by omega, if_true]
    simp
    omega
  · intro pre rest c hpre hc
    induction pre with
    | nil =>
      simp only [List.nil_append, dispatchChunks]
      rw [hfatal c hc]
    | cons p pre' ih =>
      simp only [dispatchChunks, List.cons_append] at hpre ⊢
      cases hR : (transcribeSingleFile base p).2.2 with
      | error e =>
        rw [hR] at hpre
      | ok t =>
        rw [hR] at hpre
        dsimp only at hpre
        have h2 := ih hpre
        simp [h2]

/-- Witness for C8: with base delay 5, two transient failures followed by
success produce 3 attempts with waits 5 and 10. -/
theorem retry_dispatch_spec_witness :
    transcribeSingleFile 5
        (fun n => if n = 0 then .transient else if n = 1 then .transient
                  else .success "ok")
      = (3, [5, 2 * 5], .ok "ok") :=
  (retry_dispatch_spec 5).1 _ "ok" rfl rfl rfl
